import Mathlib

/-!
Verification model of the FolderIndexer program (src/main.rs).

The program maintains a persistent ledger mapping relative file paths to
content digests, reconciles it against the set of discovered files, and
persists it back to disk.

Shallow embedding conventions:

* strings are modelled as lists of characters (Str); string literals of
  the development are converted with String.data;
* the HashMap of the source is modelled as an association list; the
  unspecified hash-map iteration order is modelled by the list order;
* the filesystem together with the checksum function compute_hash is
  modelled by a pure function hashAt from paths to digests: hashAt f is
  the digest of the current content of file f;
* writing the ledger file is modelled by returning the written content;
  the disk field of a run state collects the successive written contents;
* the fail_due_to_difference flag of the source is the mismatch field;
* records is a ghost counter of add_file calls, used to state the
  exactly-once accounting properties.
-/

abbrev Str := List Char

/-- Whitespace test matching the characters trimmed by the source at the
ASCII subset relevant to the ledger format. -/
def isWs (c : Char) : Bool :=
  c = ' ' || c = '\t' || c = '\n' || c = '\r'

/-- Model of str::trim as applied to one ledger line. -/
def trim (s : Str) : Str :=
  ((s.dropWhile isWs).reverse.dropWhile isWs).reverse

/-- Model of str::split_once: split at the first occurrence of sep. -/
def splitOnce (sep : Char) : Str → Option (Str × Str)
  | [] => none
  | c :: rest =>
    if c = sep then some ([], rest)
    else (splitOnce sep rest).map (fun q => (c :: q.1, q.2))

/-- Split a string at every occurrence of sep.  Model of str::lines for
the load path: lines additionally drops a final empty segment and
trailing carriage returns, both of which are discarded anyway by the
whitespace-trimming parse in load, so the two are extensionally equal
there. -/
def splitSep (sep : Char) : Str → List Str
  | [] => [[]]
  | c :: rest =>
    if c = sep then [] :: splitSep sep rest
    else
      match splitSep sep rest with
      | [] => [[c]]
      | l :: ls => (c :: l) :: ls

/-- Join lines with a newline separator; model of the reduce with
format of a-newline-b in save, with unwrap_or of the empty string. -/
def joinLines : List Str → Str
  | [] => []
  | [l] => l
  | l :: ls => l ++ '\n' :: joinLines ls

/-- Lookup in the association-list model of the HashMap. -/
def lookupKey (k : Str) : List (Str × Str) → Option Str
  | [] => none
  | e :: rest => if e.1 = k then some e.2 else lookupKey k rest

/-- Remove every pair with the given key. -/
def removeKey (k : Str) : List (Str × Str) → List (Str × Str)
  | [] => []
  | e :: rest => if e.1 = k then removeKey k rest else e :: removeKey k rest

/-- Model of HashMap::insert: overwrite the binding of k with v. -/
def insertPair (k v : Str) (l : List (Str × Str)) : List (Str × Str) :=
  removeKey k l ++ [(k, v)]

/-- Lexicographic order on character lists; model of the Ord used by
sort_by on the relative paths in save. -/
def strLe : Str → Str → Bool
  | [], _ => true
  | _ :: _, [] => false
  | a :: as, b :: bs => if a < b then true else if b < a then false else strLe as bs

/-- Order on ledger entries comparing paths, as in save. -/
def entryLe (a b : Str × Str) : Prop := strLe a.1 b.1 = true

instance : DecidableRel entryLe := fun a b => by
  unfold entryLe; infer_instance

/-- One serialized ledger line: digest, one space, path. -/
def entryLine (e : Str × Str) : Str := e.2 ++ ' ' :: e.1

/-- Entries sorted by path ascending, as in save. -/
def sortEntries (l : List (Str × Str)) : List (Str × Str) :=
  l.insertionSort entryLe

/-- The full serialized ledger content produced by save. -/
def serializeEntries (l : List (Str × Str)) : Str :=
  joinLines ((sortEntries l).map entryLine)

/-- Model of struct FileDatabase: the path-to-digest map (files) and the
count of mutations since the last save (change_count). -/
structure FileDatabase where
  files : List (Str × Str)
  change_count : Nat
deriving DecidableEq

def FileDatabase.new : FileDatabase := ⟨[], 0⟩

/-- Model of FileDatabase::get_hash. -/
def FileDatabase.get_hash (db : FileDatabase) (f : Str) : Option Str :=
  lookupKey f db.files

/-- Model of FileDatabase::add_file: unconditional overwrite plus
unconditional change-counter increment. -/
def FileDatabase.add_file (db : FileDatabase) (f : Str) (hash : Str) : FileDatabase :=
  ⟨insertPair f hash db.files, db.change_count + 1⟩

/-- Model of FileDatabase::save: returns the content written to the
destination and the database with the change counter reset. -/
def FileDatabase.save (db : FileDatabase) : Str × FileDatabase :=
  (serializeEntries db.files, ⟨db.files, 0⟩)

/-- Model of FileDatabase::load from the content of the source file:
lines are trimmed and split at the first space into digest and path;
lines without a space (blank lines included) are dropped; collecting
into a HashMap lets a later line with the same path overwrite an
earlier one.  The change counter starts at zero. -/
def FileDatabase.load (content : Str) : FileDatabase :=
  ⟨((splitSep '\n' content).filterMap
      (fun line => splitOnce ' ' (trim line))).foldl
      (fun acc e => insertPair e.2 e.1 acc) [],
   0⟩

/-- Model of FileDatabase::truncate_to_existing: collect the keys not in
the keep set, then remove each, emitting one notice (modelled by the
removed path) and one counter increment per collected key. -/
def FileDatabase.truncate_to_existing (db : FileDatabase) (keep : List Str) :
    FileDatabase × List Str :=
  let removeFiles := (db.files.map (fun e => e.1)).filter (fun k => decide (k ∉ keep))
  removeFiles.foldl
    (fun acc k => (⟨removeKey k acc.1.files, acc.1.change_count + 1⟩, acc.2 ++ [k]))
    (db, [])

/-- Model of FileDatabase::num_changes. -/
def FileDatabase.num_changes (db : FileDatabase) : Nat := db.change_count

/-- Model of FileDatabase::has_changes. -/
def FileDatabase.has_changes (db : FileDatabase) : Bool := db.change_count ≠ 0

/-- Model of enum ExistingFileAction. -/
inductive ExistingFileAction
  | nothing
  | check
  | update
deriving DecidableEq

/-- Shared run state: the ledger behind its mutex, the shared mismatch
flag fail_due_to_difference, the history of contents written to the
ledger file, and the ghost count of add_file calls. -/
structure RunState where
  db : FileDatabase
  mismatch : Bool
  disk : List Str
  records : Nat
deriving DecidableEq

/-- The decision part of process_file, computed between the two ledger
locks: given the digest read from the ledger for f, return the digest to
record (if any) and whether the mismatch flag is to be set.  Mirrors the
match on existing_hash in the source; the inner wildcard arm of the
source panics and is unreachable because it is guarded by the test
against Nothing. -/
def decideRecord (action : ExistingFileAction) (hashAt : Str → Str)
    (existing : Option Str) (f : Str) : Option Str × Bool :=
  match existing with
  | some old_hash =>
    if action = ExistingFileAction.nothing then (none, false)
    else
      let new_hash := hashAt f
      if new_hash = old_hash then (none, false)
      else
        match action with
        | ExistingFileAction.update => (some new_hash, false)
        | ExistingFileAction.check => (none, true)
        | ExistingFileAction.nothing => (none, false)
  | none => (some (hashAt f), false)

/-- The write part of process_file, performed under the second ledger
lock: apply the recorded digest if any, then flush opportunistically
when the pending-change count exceeds 10. -/
def applyWrite (db : FileDatabase) (disk : List Str) (records : Nat)
    (f : Str) (dbHash : Option Str) : FileDatabase × List Str × Nat :=
  let db1 := match dbHash with
    | some h => db.add_file f h
    | none => db
  let records1 := match dbHash with
    | some _ => records + 1
    | none => records
  if db1.num_changes > 10 then
    let sv := db1.save
    (sv.2, disk ++ [sv.1], records1)
  else
    (db1, disk, records1)

/-- Model of process_file: read the existing digest under the first
lock, decide (computing the hash unlocked and setting the mismatch flag
under its own lock if required), then write and flush under the second
lock. -/
def process_file (action : ExistingFileAction) (hashAt : Str → Str)
    (s : RunState) (f : Str) : RunState :=
  let dec := decideRecord action hashAt (s.db.get_hash f) f
  let w := applyWrite s.db s.disk s.records f dec.1
  ⟨w.1, s.mismatch || dec.2, w.2.1, w.2.2⟩

/-- The single-threaded processing loop of main (processes = 0):
process every discovered path in order. -/
def seqProcess (action : ExistingFileAction) (hashAt : Str → Str)
    (db0 : FileDatabase) (files : List Str) : RunState :=
  files.foldl (process_file action hashAt) ⟨db0, false, [], 0⟩

/-- The tail of main after the processing loop: optional prune of stale
entries, final save when changes are pending, and the exit status. -/
def runFinish (removeOld : Bool) (files : List Str) (s : RunState) : RunState × Nat :=
  let db2 := if removeOld then (s.db.truncate_to_existing files).1 else s.db
  let after :=
    if db2.has_changes then
      let sv := db2.save
      (⟨sv.2, s.mismatch, s.disk ++ [sv.1], s.records⟩ : RunState)
    else
      ⟨db2, s.mismatch, s.disk, s.records⟩
  (after, if s.mismatch then 1 else 0)

/-- Model of main with processes = 0: sequential loop then finish. -/
def runMain (action : ExistingFileAction) (hashAt : Str → Str)
    (removeOld : Bool) (db0 : FileDatabase) (files : List Str) : RunState × Nat :=
  runFinish removeOld files (seqProcess action hashAt db0 files)

/-- Progress of one in-flight path through process_file in a pooled run:
popped from the queue, digest read under the first ledger lock, or hash
computed and decision made (mismatch flag already applied). -/
inductive Phase
  | started
  | readDone (existing : Option Str)
  | midDone (dbHash : Option Str)
deriving DecidableEq

/-- One in-flight unit of work of a worker thread. -/
structure WorkUnit where
  f : Str
  ph : Phase
deriving DecidableEq

/-- Global state of a pooled run: the shared work queue, the in-flight
tasks of the workers, and the shared run state fields. -/
structure CState where
  queue : List Str
  tasks : List WorkUnit
  db : FileDatabase
  mismatch : Bool
  disk : List Str
  records : Nat
deriving DecidableEq

/-- Initial pooled-run state: the queue holds the whole discovered path
set, no worker holds a task. -/
def initCState (db0 : FileDatabase) (files : List Str) : CState :=
  ⟨files, [], db0, false, [], 0⟩

/-- One atomic step of a pooled run.  Each constructor is one critical
section of the source: pop takes the queue lock and removes the front
path; read takes the ledger lock and reads the existing digest; mid
computes the hash unlocked and, in the check-mismatch case, takes the
flag lock and sets it; write takes the ledger lock, applies the decided
record and flushes opportunistically.  Any in-flight task may step, so
every interleaving of the worker threads is covered. -/
inductive CStep (action : ExistingFileAction) (hashAt : Str → Str) :
    CState → CState → Prop
  | pop (f : Str) (rest : List Str) (tasks : List WorkUnit) (db : FileDatabase)
      (m : Bool) (disk : List Str) (rc : Nat) :
      CStep action hashAt
        ⟨f :: rest, tasks, db, m, disk, rc⟩
        ⟨rest, tasks ++ [⟨f, Phase.started⟩], db, m, disk, rc⟩
  | read (q : List Str) (pre post : List WorkUnit) (f : Str) (db : FileDatabase)
      (m : Bool) (disk : List Str) (rc : Nat) :
      CStep action hashAt
        ⟨q, pre ++ ⟨f, Phase.started⟩ :: post, db, m, disk, rc⟩
        ⟨q, pre ++ ⟨f, Phase.readDone (db.get_hash f)⟩ :: post, db, m, disk, rc⟩
  | mid (q : List Str) (pre post : List WorkUnit) (f : Str) (ex : Option Str)
      (db : FileDatabase) (m : Bool) (disk : List Str) (rc : Nat) :
      CStep action hashAt
        ⟨q, pre ++ ⟨f, Phase.readDone ex⟩ :: post, db, m, disk, rc⟩
        ⟨q, pre ++ ⟨f, Phase.midDone (decideRecord action hashAt ex f).1⟩ :: post,
         db, m || (decideRecord action hashAt ex f).2, disk, rc⟩
  | write (q : List Str) (pre post : List WorkUnit) (f : Str) (dh : Option Str)
      (db : FileDatabase) (m : Bool) (disk : List Str) (rc : Nat) :
      CStep action hashAt
        ⟨q, pre ++ ⟨f, Phase.midDone dh⟩ :: post, db, m, disk, rc⟩
        ⟨q, pre ++ post, (applyWrite db disk rc f dh).1, m,
         (applyWrite db disk rc f dh).2.1, (applyWrite db disk rc f dh).2.2⟩

/-- A pooled run with worker count W: a finite sequence of steps in
which at most W tasks are ever in flight, as enforced by the fixed pool
of W worker threads. -/
inductive CRun (action : ExistingFileAction) (hashAt : Str → Str) (W : Nat) :
    CState → CState → Prop
  | refl (s : CState) : CRun action hashAt W s s
  | step {s t u : CState} : CRun action hashAt W s t → CStep action hashAt t u →
      u.tasks.length ≤ W → CRun action hashAt W s u


theorem lookupKey_removeKey_self (k : Str) (l : List (Str × Str)) :
    lookupKey k (removeKey k l) = none := by
  induction l with
  | nil => rfl
  | cons e rest ih =>
    by_cases h : e.1 = k
    · simp [removeKey, h, ih]
    · simp [removeKey, lookupKey, h, ih]

theorem lookupKey_removeKey_ne {g k : Str} (h : g ≠ k) (l : List (Str × Str)) :
    lookupKey g (removeKey k l) = lookupKey g l := by
  induction l with
  | nil => rfl
  | cons e rest ih =>
    by_cases hk : e.1 = k
    · have h2 : k ≠ g := Ne.symm h
      simp [removeKey, lookupKey, hk, h2, ih]
    · by_cases hg : e.1 = g
      · simp [removeKey, lookupKey, hk, hg, h]
      · simp [removeKey, lookupKey, hk, hg, ih]

theorem lookupKey_append (k : Str) (l1 l2 : List (Str × Str)) :
    lookupKey k (l1 ++ l2) =
      match lookupKey k l1 with
      | some v => some v
      | none => lookupKey k l2 := by
  induction l1 with
  | nil => simp [lookupKey]
  | cons e rest ih =>
    by_cases h : e.1 = k
    · simp [lookupKey, h]
    · simp [lookupKey, h, ih]

theorem lookupKey_insertPair_self (k v : Str) (l : List (Str × Str)) :
    lookupKey k (insertPair k v l) = some v := by
  simp [insertPair, lookupKey_append, lookupKey_removeKey_self, lookupKey]

theorem lookupKey_insertPair_ne {g k : Str} (h : g ≠ k) (v : Str) (l : List (Str × Str)) :
    lookupKey g (insertPair k v l) = lookupKey g l := by
  have h2 : k ≠ g := Ne.symm h
  simp only [insertPair, lookupKey_append, lookupKey_removeKey_ne h, lookupKey, h2,
    if_false]
  cases lookupKey g l <;> simp [h2]

theorem removeKey_eq_filter (k : Str) (l : List (Str × Str)) :
    removeKey k l = l.filter (fun e => decide (e.1 ≠ k)) := by
  induction l with
  | nil => rfl
  | cons e rest ih =>
    by_cases h : e.1 = k
    · simp [removeKey, h, ih]
    · simp [removeKey, h, ih]

theorem lookupKey_eq_none_of_not_mem {k : Str} {l : List (Str × Str)}
    (h : k ∉ l.map (fun e => e.1)) : lookupKey k l = none := by
  induction l with
  | nil => rfl
  | cons e rest ih =>
    simp only [List.map_cons, List.mem_cons] at h
    push_neg at h
    have h1 : e.1 ≠ k := fun hh => h.1 hh.symm
    simp [lookupKey, h1, ih h.2]

theorem removeKey_eq_self_of_not_mem {k : Str} {l : List (Str × Str)}
    (h : k ∉ l.map (fun e => e.1)) : removeKey k l = l := by
  induction l with
  | nil => rfl
  | cons e rest ih =>
    simp only [List.map_cons, List.mem_cons] at h
    push_neg at h
    have h1 : e.1 ≠ k := fun hh => h.1 hh.symm
    simp [removeKey, h1, ih h.2]

theorem process_file_db_files (action : ExistingFileAction) (hashAt : Str → Str)
    (s : RunState) (f : Str) :
    (process_file action hashAt s f).db.files =
      match (decideRecord action hashAt (s.db.get_hash f) f).1 with
      | some h => insertPair f h s.db.files
      | none => s.db.files := by
  unfold process_file applyWrite
  cases hdec : (decideRecord action hashAt (s.db.get_hash f) f).1 <;>
    simp [hdec, FileDatabase.add_file, FileDatabase.num_changes, FileDatabase.save] <;>
    split <;> simp

theorem process_file_mismatch (action : ExistingFileAction) (hashAt : Str → Str)
    (s : RunState) (f : Str) :
    (process_file action hashAt s f).mismatch =
      (s.mismatch || (decideRecord action hashAt (s.db.get_hash f) f).2) := rfl

theorem process_file_records (action : ExistingFileAction) (hashAt : Str → Str)
    (s : RunState) (f : Str) :
    (process_file action hashAt s f).records =
      match (decideRecord action hashAt (s.db.get_hash f) f).1 with
      | some _ => s.records + 1
      | none => s.records := by
  unfold process_file applyWrite
  cases hdec : (decideRecord action hashAt (s.db.get_hash f) f).1 <;>
    simp [hdec, FileDatabase.add_file, FileDatabase.num_changes, FileDatabase.save] <;>
    split <;> simp

theorem process_file_change_count (action : ExistingFileAction) (hashAt : Str → Str)
    (s : RunState) (f : Str) :
    (process_file action hashAt s f).db.change_count =
      (match (decideRecord action hashAt (s.db.get_hash f) f).1 with
        | some _ =>
          if s.db.change_count + 1 > 10 then 0 else s.db.change_count + 1
        | none =>
          if s.db.change_count > 10 then 0 else s.db.change_count) := by
  unfold process_file applyWrite
  cases hdec : (decideRecord action hashAt (s.db.get_hash f) f).1 <;>
    simp [hdec, FileDatabase.add_file, FileDatabase.num_changes, FileDatabase.save] <;>
    split <;> simp_all

theorem process_file_disk (action : ExistingFileAction) (hashAt : Str → Str)
    (s : RunState) (f : Str) :
    (process_file action hashAt s f).disk = s.disk ∨
      ∃ c, (process_file action hashAt s f).disk = s.disk ++ [c] := by
  unfold process_file applyWrite
  cases hdec : (decideRecord action hashAt (s.db.get_hash f) f).1 <;>
    simp [hdec, FileDatabase.add_file, FileDatabase.num_changes, FileDatabase.save] <;>
    split <;> simp

theorem decideRecord_none (action : ExistingFileAction) (hashAt : Str → Str) (f : Str) :
    decideRecord action hashAt none f = (some (hashAt f), false) := rfl

theorem decideRecord_check_ne {hashAt : Str → Str} {old f : Str}
    (h : hashAt f ≠ old) :
    decideRecord ExistingFileAction.check hashAt (some old) f = (none, true) := by
  simp [decideRecord, h]

theorem decideRecord_check_eq {hashAt : Str → Str} {old f : Str}
    (h : hashAt f = old) :
    decideRecord ExistingFileAction.check hashAt (some old) f = (none, false) := by
  simp [decideRecord, h]

theorem decideRecord_update_ne {hashAt : Str → Str} {old f : Str}
    (h : hashAt f ≠ old) :
    decideRecord ExistingFileAction.update hashAt (some old) f =
      (some (hashAt f), false) := by
  simp [decideRecord, h]

theorem decideRecord_update_eq {hashAt : Str → Str} {old f : Str}
    (h : hashAt f = old) :
    decideRecord ExistingFileAction.update hashAt (some old) f = (none, false) := by
  simp [decideRecord, h]

theorem decideRecord_nothing (hashAt : Str → Str) (old f : Str) :
    decideRecord ExistingFileAction.nothing hashAt (some old) f = (none, false) := rfl

/-- Under the check policy a record is never decided for a present path. -/
theorem decideRecord_check_fst (hashAt : Str → Str) (old f : Str) :
    (decideRecord ExistingFileAction.check hashAt (some old) f).1 = none := by
  by_cases h : hashAt f = old
  · rw [decideRecord_check_eq h]
  · rw [decideRecord_check_ne h]

/-- The mismatch flag is only ever requested under the check policy. -/
theorem decideRecord_flag_of_ne_check {action : ExistingFileAction}
    (hne : action ≠ ExistingFileAction.check) (hashAt : Str → Str)
    (existing : Option Str) (f : Str) :
    (decideRecord action hashAt existing f).2 = false := by
  cases existing with
  | none => rfl
  | some old =>
    cases action with
    | nothing => rfl
    | check => exact absurd rfl hne
    | update =>
      by_cases h : hashAt f = old
      · rw [decideRecord_update_eq h]
      · rw [decideRecord_update_ne h]

/-- C7: record(path, digest) inserts or overwrites the entry for the
path and increments the change counter by exactly one, unconditionally,
even when the stored digest already equals the new one. -/
theorem claim_C7 (db : FileDatabase) (f h : Str) :
    (db.add_file f h).get_hash f = some h ∧
    (∀ g, g ≠ f → (db.add_file f h).get_hash g = db.get_hash g) ∧
    (db.add_file f h).change_count = db.change_count + 1 ∧
    (db.get_hash f = some h → (db.add_file f h).change_count = db.change_count + 1) := by
  refine ⟨?_, ?_, rfl, fun _ => rfl⟩
  · simp [FileDatabase.add_file, FileDatabase.get_hash, lookupKey_insertPair_self]
  · intro g hg
    simp [FileDatabase.add_file, FileDatabase.get_hash, lookupKey_insertPair_ne hg]

theorem claim_C7_witness :
    (FileDatabase.add_file ⟨[("p".data, "d".data)], 3⟩ "p".data "d".data).change_count =
      3 + 1 ∧
    (FileDatabase.add_file ⟨[("p".data, "d".data)], 3⟩ "q".data "x".data).get_hash
      "p".data = some "d".data :=
  ⟨(claim_C7 ⟨[("p".data, "d".data)], 3⟩ "p".data "d".data).2.2.2 (by decide),
   ((claim_C7 ⟨[("p".data, "d".data)], 3⟩ "q".data "x".data).2.1 "p".data
      (by decide)).trans (by decide)⟩

/-- C3: a discovered path absent from the ledger gets exactly one
record with the freshly computed digest, whatever the configured
existing-file policy; the change counter is bumped once (and reset to
zero by the opportunistic flush when it then exceeds the threshold). -/
theorem claim_C3 (action : ExistingFileAction) (hashAt : Str → Str)
    (s : RunState) (f : Str) (habs : s.db.get_hash f = none) :
    (process_file action hashAt s f).db.get_hash f = some (hashAt f) ∧
    (process_file action hashAt s f).records = s.records + 1 ∧
    (process_file action hashAt s f).db.change_count =
      (if s.db.change_count + 1 > 10 then 0 else s.db.change_count + 1) := by
  refine ⟨?_, ?_, ?_⟩
  · rw [FileDatabase.get_hash, process_file_db_files, habs, decideRecord_none]
    exact lookupKey_insertPair_self f (hashAt f) s.db.files
  · rw [process_file_records, habs, decideRecord_none]
  · rw [process_file_change_count, habs, decideRecord_none]

theorem claim_C3_witness :
    FileDatabase.get_hash
      (process_file ExistingFileAction.nothing (fun _ => "d".data)
        ⟨⟨[], 0⟩, false, [], 0⟩ "p".data).db "p".data = some "d".data :=
  (claim_C3 ExistingFileAction.nothing (fun _ => "d".data)
    ⟨⟨[], 0⟩, false, [], 0⟩ "p".data (by decide)).1


/-- Characterization of the removal loop of truncate_to_existing over
an arbitrary key work list. -/
theorem truncate_foldl (ks : List Str) (db : FileDatabase) (msgs : List Str) :
    ks.foldl
        (fun acc k =>
          ((⟨removeKey k acc.1.files, acc.1.change_count + 1⟩ : FileDatabase),
            acc.2 ++ [k]))
        (db, msgs) =
      (⟨db.files.filter (fun e => decide (e.1 ∉ ks)), db.change_count + ks.length⟩,
        msgs ++ ks) := by
  induction ks generalizing db msgs with
  | nil => simp
  | cons k rest ih =>
    rw [List.foldl_cons, ih]
    simp only [Prod.mk.injEq, FileDatabase.mk.injEq]
    refine ⟨⟨?_, ?_⟩, ?_⟩
    · rw [removeKey_eq_filter, List.filter_filter]
      refine List.filter_congr fun e _ => ?_
      by_cases h1 : e.1 = k <;> by_cases h2 : e.1 ∈ rest <;> simp [h1, h2]
    · simp only [List.length_cons]; omega
    · simp

/-- Full characterization of truncate_to_existing: kept entries,
counter increments, and emitted notices. -/
theorem truncate_spec (db : FileDatabase) (keep : List Str) :
    (db.truncate_to_existing keep).1.files =
      db.files.filter (fun e => decide (e.1 ∈ keep)) ∧
    (db.truncate_to_existing keep).1.change_count =
      db.change_count + (db.files.filter (fun e => decide (e.1 ∉ keep))).length ∧
    (db.truncate_to_existing keep).2 =
      (db.files.filter (fun e => decide (e.1 ∉ keep))).map (fun e => e.1) := by
  have hks :
      (db.files.map (fun e => e.1)).filter (fun k => decide (k ∉ keep)) =
        (db.files.filter (fun e => decide (e.1 ∉ keep))).map (fun e => e.1) := by
    rw [List.filter_map]; rfl
  have hmem : ∀ e ∈ db.files, e.1 ∉ keep →
      e.1 ∈ (db.files.filter (fun x => decide (x.1 ∉ keep))).map (fun x => x.1) := by
    intro e he hk
    refine List.mem_map.mpr ⟨e, List.mem_filter.mpr ⟨he, ?_⟩, rfl⟩
    simpa using hk
  have hnmem : ∀ g : Str, g ∈ keep →
      g ∉ (db.files.filter (fun x => decide (x.1 ∉ keep))).map (fun x => x.1) := by
    intro g hg hmemg
    obtain ⟨x, hx, hxe⟩ := List.mem_map.mp hmemg
    have hx2 := List.of_mem_filter hx
    rw [hxe] at hx2
    have hx3 : g ∉ keep := by simpa using hx2
    exact hx3 hg
  simp only [FileDatabase.truncate_to_existing]
  rw [truncate_foldl, hks]
  refine ⟨?_, by rw [List.length_map], by rw [List.nil_append]⟩
  refine List.filter_congr fun e he => ?_
  rw [decide_eq_decide]
  constructor
  · intro hne
    by_contra hk
    exact hne (hmem e he hk)
  · intro hk
    exact hnmem e.1 hk

/-- C6: prune removes exactly the entries whose path is outside the
keep set, keeps the others untouched, increments the change counter
once per removed entry, and emits one notice per removed entry. -/
theorem claim_C6 (db : FileDatabase) (keep : List Str) :
    (db.truncate_to_existing keep).1.files =
      db.files.filter (fun e => decide (e.1 ∈ keep)) ∧
    (db.truncate_to_existing keep).1.change_count =
      db.change_count + (db.files.filter (fun e => decide (e.1 ∉ keep))).length ∧
    (db.truncate_to_existing keep).2 =
      (db.files.filter (fun e => decide (e.1 ∉ keep))).map (fun e => e.1) :=
  truncate_spec db keep

/-- After any single process_file call the pending-change count is at
most 10: a mutation pushing it past 10 triggers the opportunistic flush,
which resets it to zero. -/
theorem process_file_change_count_le (action : ExistingFileAction) (hashAt : Str → Str)
    (s : RunState) (f : Str) :
    (process_file action hashAt s f).db.change_count ≤ 10 := by
  rw [process_file_change_count]
  cases h : (decideRecord action hashAt (s.db.get_hash f) f).1 with
  | none =>
    by_cases hc : s.db.change_count > 10 <;> simp [hc] <;> omega
  | some v =>
    by_cases hc : s.db.change_count + 1 > 10 <;> simp [hc] <;> omega

/-- C5 (amended): between the processing of individual paths the
pending-change count is at most the threshold itself, 10: the engine
saves only when the count strictly exceeds 10 after an action, so a
count of exactly 10 survives unflushed. -/
theorem claim_C5 (action : ExistingFileAction) (hashAt : Str → Str)
    (db0 : FileDatabase) (files l1 l2 : List Str)
    (hsplit : files = l1 ++ l2) (h0 : db0.change_count ≤ 10) :
    (l1.foldl (process_file action hashAt) ⟨db0, false, [], 0⟩).db.change_count ≤ 10 := by
  clear hsplit
  have main : ∀ (l : List Str) (s : RunState), s.db.change_count ≤ 10 →
      (l.foldl (process_file action hashAt) s).db.change_count ≤ 10 := by
    intro l
    induction l with
    | nil => exact fun s h => h
    | cons f rest ih =>
      intro s h
      rw [List.foldl_cons]
      exact ih _ (process_file_change_count_le action hashAt s f)
  exact main l1 ⟨db0, false, [], 0⟩ h0

theorem claim_C5_witness :
    (["p".data] : List Str) = ["p".data] ++ [] ∧
    FileDatabase.new.change_count ≤ 10 ∧
    (List.foldl (process_file ExistingFileAction.nothing (fun _ => "d".data))
        ⟨FileDatabase.new, false, [], 0⟩ ["p".data]).db.change_count ≤ 10 :=
  ⟨rfl, by decide,
    claim_C5 ExistingFileAction.nothing (fun _ => "d".data) FileDatabase.new
      ["p".data] ["p".data] [] rfl (by decide)⟩

/-- The first ten single-letter paths used by the C5 counterexample. -/
def tenPaths : List Str :=
  ["a".data, "b".data, "c".data, "d".data, "e".data, "f".data, "g".data,
   "h".data, "i".data, "j".data]

/-- C5 (counterexample to the stated bound): in a run over eleven fresh
paths, the state between the tenth and the eleventh path carries ten
pending changes and an empty flush history, so the pending-change count
between path processings is not bounded by threshold-minus-one = 9. -/
theorem claim_C5_counterexample :
    seqProcess ExistingFileAction.nothing (fun _ => "x".data) FileDatabase.new
        (tenPaths ++ ["k".data]) =
      List.foldl (process_file ExistingFileAction.nothing (fun _ => "x".data))
        (List.foldl (process_file ExistingFileAction.nothing (fun _ => "x".data))
          ⟨FileDatabase.new, false, [], 0⟩ tenPaths) ["k".data] ∧
    (List.foldl (process_file ExistingFileAction.nothing (fun _ => "x".data))
        ⟨FileDatabase.new, false, [], 0⟩ tenPaths).db.change_count = 10 ∧
    ¬ (List.foldl (process_file ExistingFileAction.nothing (fun _ => "x".data))
        ⟨FileDatabase.new, false, [], 0⟩ tenPaths).db.change_count ≤ 9 ∧
    (List.foldl (process_file ExistingFileAction.nothing (fun _ => "x".data))
        ⟨FileDatabase.new, false, [], 0⟩ tenPaths).disk = [] := by
  refine ⟨List.foldl_append _ _ _ _, ?_, ?_, ?_⟩ <;> decide

/-- A process_file call on path f leaves the ledger entry of any other
path untouched. -/
theorem process_file_get_hash_ne {g f : Str} (hne : g ≠ f)
    (action : ExistingFileAction) (hashAt : Str → Str) (s : RunState) :
    (process_file action hashAt s f).db.get_hash g = s.db.get_hash g := by
  rw [FileDatabase.get_hash, FileDatabase.get_hash, process_file_db_files]
  cases (decideRecord action hashAt (s.db.get_hash f) f).1 with
  | none => rfl
  | some h => exact lookupKey_insertPair_ne hne h s.db.files

/-- Under the check policy, process_file on a path already present in
the ledger leaves the whole file map untouched. -/
theorem process_file_check_files {hashAt : Str → Str} {s : RunState} {f D : Str}
    (hpres : s.db.get_hash f = some D) :
    (process_file ExistingFileAction.check hashAt s f).db.files = s.db.files := by
  rw [process_file_db_files, hpres, decideRecord_check_fst]

/-- Under the update policy, process_file on a path already present in
the ledger leaves the entry at the freshly computed digest. -/
theorem process_file_update_present {hashAt : Str → Str} {s : RunState} {f v : Str}
    (hpres : s.db.get_hash f = some v) :
    (process_file ExistingFileAction.update hashAt s f).db.get_hash f =
      some (hashAt f) := by
  rw [FileDatabase.get_hash, process_file_db_files, hpres]
  by_cases h : hashAt f = v
  · rw [decideRecord_update_eq h]
    show lookupKey f s.db.files = some (hashAt f)
    rw [h]; exact hpres
  · rw [decideRecord_update_ne h]
    exact lookupKey_insertPair_self f (hashAt f) s.db.files

/-- Once set, the mismatch flag survives the rest of the processing
loop. -/
theorem foldl_mismatch_true (action : ExistingFileAction) (hashAt : Str → Str) :
    ∀ (l : List Str) (s : RunState), s.mismatch = true →
      (l.foldl (process_file action hashAt) s).mismatch = true := by
  intro l
  induction l with
  | nil => exact fun s h => h
  | cons f rest ih =>
    intro s h
    rw [List.foldl_cons]
    exact ih _ (by rw [process_file_mismatch, h, Bool.true_or])

/-- Outside the check policy the processing loop never touches the
mismatch flag. -/
theorem foldl_mismatch_of_ne_check {action : ExistingFileAction}
    (hne : action ≠ ExistingFileAction.check) (hashAt : Str → Str) :
    ∀ (l : List Str) (s : RunState),
      (l.foldl (process_file action hashAt) s).mismatch = s.mismatch := by
  intro l
  induction l with
  | nil => exact fun s => rfl
  | cons f rest ih =>
    intro s
    rw [List.foldl_cons, ih,
      process_file_mismatch, decideRecord_flag_of_ne_check hne, Bool.or_false]

/-- Under the check policy a present ledger entry survives the whole
processing loop unchanged. -/
theorem check_entry_stable (hashAt : Str → Str) (P D : Str) :
    ∀ (l : List Str) (s : RunState), s.db.get_hash P = some D →
      (l.foldl (process_file ExistingFileAction.check hashAt) s).db.get_hash P =
        some D := by
  intro l
  induction l with
  | nil => exact fun s h => h
  | cons f rest ih =>
    intro s h
    rw [List.foldl_cons]
    refine ih _ ?_
    by_cases hf : P = f
    · subst hf
      rw [FileDatabase.get_hash, process_file_check_files h]
      exact h
    · rw [process_file_get_hash_ne hf]
      exact h

/-- Under the update policy an entry pinned at the fresh digest stays
there for the rest of the processing loop. -/
theorem update_entry_stable (hashAt : Str → Str) (P : Str) :
    ∀ (l : List Str) (s : RunState), s.db.get_hash P = some (hashAt P) →
      (l.foldl (process_file ExistingFileAction.update hashAt) s).db.get_hash P =
        some (hashAt P) := by
  intro l
  induction l with
  | nil => exact fun s h => h
  | cons f rest ih =>
    intro s h
    rw [List.foldl_cons]
    refine ih _ ?_
    by_cases hf : P = f
    · subst hf
      exact process_file_update_present h
    · rw [process_file_get_hash_ne hf]
      exact h

/-- Under the update policy a present entry stays present throughout
the processing loop. -/
theorem update_entry_isSome (hashAt : Str → Str) (P : Str) :
    ∀ (l : List Str) (s : RunState), (s.db.get_hash P).isSome = true →
      ((l.foldl (process_file ExistingFileAction.update hashAt) s).db.get_hash
        P).isSome = true := by
  intro l
  induction l with
  | nil => exact fun s h => h
  | cons f rest ih =>
    intro s h
    rw [List.foldl_cons]
    refine ih _ ?_
    by_cases hf : P = f
    · subst hf
      obtain ⟨v, hv⟩ := Option.isSome_iff_exists.mp h
      rw [process_file_update_present hv]
      rfl
    · rw [process_file_get_hash_ne hf]
      exact h

/-- Filtering an association list by a keep predicate preserves the
lookup of a kept key. -/
theorem lookupKey_filter_keep {P : Str} {keep : List Str} (hP : P ∈ keep)
    (l : List (Str × Str)) :
    lookupKey P (l.filter (fun e => decide (e.1 ∈ keep))) = lookupKey P l := by
  induction l with
  | nil => rfl
  | cons e rest ih =>
    by_cases he : e.1 = P
    · have : e.1 ∈ keep := by rw [he]; exact hP
      simp [List.filter_cons, this, lookupKey, he, ih, hP]
    · by_cases hk : e.1 ∈ keep
      · simp [List.filter_cons, hk, lookupKey, he, ih]
      · simp [List.filter_cons, hk, lookupKey, he, ih]

/-- The run tail preserves the mismatch flag. -/
theorem runFinish_mismatch (removeOld : Bool) (files : List Str) (s : RunState) :
    (runFinish removeOld files s).1.mismatch = s.mismatch := by
  unfold runFinish
  dsimp only
  split <;> split <;> rfl

/-- The exit status is 1 exactly when the mismatch flag is set. -/
theorem runFinish_exit (removeOld : Bool) (files : List Str) (s : RunState) :
    (runFinish removeOld files s).2 = if s.mismatch then 1 else 0 := rfl

/-- The run tail (prune of stale entries plus final save) preserves the
ledger entry of every discovered path. -/
theorem runFinish_get_hash_mem {P : Str} {files : List Str} (hmem : P ∈ files)
    (removeOld : Bool) (s : RunState) :
    (runFinish removeOld files s).1.db.get_hash P = s.db.get_hash P := by
  have htr : (s.db.truncate_to_existing files).1.get_hash P = s.db.get_hash P := by
    rw [FileDatabase.get_hash, (truncate_spec s.db files).1]
    exact lookupKey_filter_keep hmem s.db.files
  unfold runFinish
  dsimp only
  split
  · split
    · exact htr
    · exact htr
  · split
    · rfl
    · rfl

/-- C1: under the check policy, a present path whose current content
hashes differently from the stored digest sets the shared mismatch
flag, leaves its ledger entry unchanged for the whole run, and makes
the process exit status nonzero. -/
theorem claim_C1 (hashAt : Str → Str) (db0 : FileDatabase) (files : List Str)
    (P D : Str) (removeOld : Bool)
    (hD : db0.get_hash P = some D) (hne : hashAt P ≠ D) (hmem : P ∈ files) :
    (runMain ExistingFileAction.check hashAt removeOld db0 files).1.mismatch = true ∧
    (runMain ExistingFileAction.check hashAt removeOld db0 files).1.db.get_hash P =
      some D ∧
    (runMain ExistingFileAction.check hashAt removeOld db0 files).2 ≠ 0 := by
  obtain ⟨l1, l2, rfl⟩ := List.append_of_mem hmem
  have hseq : seqProcess ExistingFileAction.check hashAt db0 (l1 ++ P :: l2) =
      l2.foldl (process_file ExistingFileAction.check hashAt)
        (process_file ExistingFileAction.check hashAt
          (l1.foldl (process_file ExistingFileAction.check hashAt)
            ⟨db0, false, [], 0⟩) P) := by
    rw [seqProcess, List.foldl_append, List.foldl_cons]
  have h1 : (l1.foldl (process_file ExistingFileAction.check hashAt)
      ⟨db0, false, [], 0⟩).db.get_hash P = some D :=
    check_entry_stable hashAt P D l1 _ hD
  have h2m : (process_file ExistingFileAction.check hashAt
      (l1.foldl (process_file ExistingFileAction.check hashAt)
        ⟨db0, false, [], 0⟩) P).mismatch = true := by
    rw [process_file_mismatch, h1, decideRecord_check_ne hne, Bool.or_true]
  have h2e : (process_file ExistingFileAction.check hashAt
      (l1.foldl (process_file ExistingFileAction.check hashAt)
        ⟨db0, false, [], 0⟩) P).db.get_hash P = some D := by
    rw [FileDatabase.get_hash, process_file_check_files h1]
    exact h1
  have hfm : (seqProcess ExistingFileAction.check hashAt db0 (l1 ++ P :: l2)).mismatch =
      true := by
    rw [hseq]; exact foldl_mismatch_true _ hashAt l2 _ h2m
  have hfe : (seqProcess ExistingFileAction.check hashAt db0
      (l1 ++ P :: l2)).db.get_hash P = some D := by
    rw [hseq]; exact check_entry_stable hashAt P D l2 _ h2e
  refine ⟨?_, ?_, ?_⟩
  · rw [runMain, runFinish_mismatch]; exact hfm
  · rw [runMain, runFinish_get_hash_mem hmem]; exact hfe
  · rw [runMain, runFinish_exit, hfm]
    exact one_ne_zero
theorem claim_C1_witness :
    FileDatabase.get_hash ⟨[("p".data, "d".data)], 0⟩ "p".data = some "d".data ∧
    (fun _ : Str => "x".data) "p".data ≠ "d".data ∧
    "p".data ∈ (["p".data] : List Str) ∧
    ((runMain ExistingFileAction.check (fun _ => "x".data) true
        ⟨[("p".data, "d".data)], 0⟩ ["p".data]).1.mismatch = true ∧
      (runMain ExistingFileAction.check (fun _ => "x".data) true
        ⟨[("p".data, "d".data)], 0⟩ ["p".data]).1.db.get_hash "p".data =
        some "d".data ∧
      (runMain ExistingFileAction.check (fun _ => "x".data) true
        ⟨[("p".data, "d".data)], 0⟩ ["p".data]).2 ≠ 0) :=
  ⟨by decide, by decide, by decide,
    claim_C1 (fun _ => "x".data) ⟨[("p".data, "d".data)], 0⟩ ["p".data] "p".data
      "d".data true (by decide) (by decide) (by decide)⟩

/-- C2: under the update policy, a present path ends the run with its
entry at the freshly computed digest, the mismatch flag stays clear and
the exit status is zero; per step, a differing digest is recorded
exactly once (entry overwritten, one record, counter bumped modulo the
flush reset) and an equal digest leaves the file map and record count
untouched. -/
theorem claim_C2 (hashAt : Str → Str) (db0 : FileDatabase) (files : List Str)
    (P D : Str) (removeOld : Bool)
    (hD : db0.get_hash P = some D) (hmem : P ∈ files) :
    (runMain ExistingFileAction.update hashAt removeOld db0 files).1.db.get_hash P =
      some (hashAt P) ∧
    (runMain ExistingFileAction.update hashAt removeOld db0 files).1.mismatch =
      false ∧
    (runMain ExistingFileAction.update hashAt removeOld db0 files).2 = 0 ∧
    (∀ s : RunState, s.db.get_hash P = some D →
      (hashAt P ≠ D →
        (process_file ExistingFileAction.update hashAt s P).db.get_hash P =
          some (hashAt P) ∧
        (process_file ExistingFileAction.update hashAt s P).records =
          s.records + 1 ∧
        (process_file ExistingFileAction.update hashAt s P).db.change_count =
          (if s.db.change_count + 1 > 10 then 0 else s.db.change_count + 1)) ∧
      (hashAt P = D →
        (process_file ExistingFileAction.update hashAt s P).db.files = s.db.files ∧
        (process_file ExistingFileAction.update hashAt s P).records = s.records)) := by
  have hupd : ExistingFileAction.update ≠ ExistingFileAction.check := by decide
  obtain ⟨l1, l2, rfl⟩ := List.append_of_mem hmem
  have hseq : seqProcess ExistingFileAction.update hashAt db0 (l1 ++ P :: l2) =
      l2.foldl (process_file ExistingFileAction.update hashAt)
        (process_file ExistingFileAction.update hashAt
          (l1.foldl (process_file ExistingFileAction.update hashAt)
            ⟨db0, false, [], 0⟩) P) := by
    rw [seqProcess, List.foldl_append, List.foldl_cons]
  have h1 : ((l1.foldl (process_file ExistingFileAction.update hashAt)
      ⟨db0, false, [], 0⟩).db.get_hash P).isSome = true :=
    update_entry_isSome hashAt P l1 _ (by rw [hD]; rfl)
  obtain ⟨v, hv⟩ := Option.isSome_iff_exists.mp h1
  have h2e : (process_file ExistingFileAction.update hashAt
      (l1.foldl (process_file ExistingFileAction.update hashAt)
        ⟨db0, false, [], 0⟩) P).db.get_hash P = some (hashAt P) :=
    process_file_update_present hv
  have hfe : (seqProcess ExistingFileAction.update hashAt db0
      (l1 ++ P :: l2)).db.get_hash P = some (hashAt P) := by
    rw [hseq]; exact update_entry_stable hashAt P l2 _ h2e
  have hfm : (seqProcess ExistingFileAction.update hashAt db0
      (l1 ++ P :: l2)).mismatch = false := by
    rw [seqProcess, foldl_mismatch_of_ne_check hupd]
  refine ⟨?_, ?_, ?_, ?_⟩
  · rw [runMain, runFinish_get_hash_mem hmem]; exact hfe
  · rw [runMain, runFinish_mismatch]; exact hfm
  · rw [runMain, runFinish_exit, hfm]; rfl
  · intro s hs
    constructor
    · intro hne
      have hdec : decideRecord ExistingFileAction.update hashAt (s.db.get_hash P) P =
          (some (hashAt P), false) := by
        rw [hs]; exact decideRecord_update_ne hne
      refine ⟨?_, ?_, ?_⟩
      · rw [FileDatabase.get_hash, process_file_db_files, hdec]
        exact lookupKey_insertPair_self P (hashAt P) s.db.files
      · rw [process_file_records, hdec]
      · rw [process_file_change_count, hdec]
    · intro heq
      have hdec : decideRecord ExistingFileAction.update hashAt (s.db.get_hash P) P =
          (none, false) := by
        rw [hs]; exact decideRecord_update_eq heq
      refine ⟨?_, ?_⟩
      · rw [process_file_db_files, hdec]
      · rw [process_file_records, hdec]
theorem claim_C2_witness :
    FileDatabase.get_hash ⟨[("p".data, "d".data)], 0⟩ "p".data = some "d".data ∧
    "p".data ∈ (["p".data] : List Str) ∧
    (runMain ExistingFileAction.update (fun _ => "x".data) true
        ⟨[("p".data, "d".data)], 0⟩ ["p".data]).1.db.get_hash "p".data =
      some "x".data ∧
    (runMain ExistingFileAction.update (fun _ => "x".data) true
        ⟨[("p".data, "d".data)], 0⟩ ["p".data]).2 = 0 :=
  ⟨by decide, by decide,
    (claim_C2 (fun _ => "x".data) ⟨[("p".data, "d".data)], 0⟩ ["p".data] "p".data
      "d".data true (by decide) (by decide)).1,
    (claim_C2 (fun _ => "x".data) ⟨[("p".data, "d".data)], 0⟩ ["p".data] "p".data
      "d".data true (by decide) (by decide)).2.2.1⟩

/-- When the decision for a path is a no-op and no flush can trigger,
process_file changes at most the mismatch flag. -/
theorem process_file_noop {action : ExistingFileAction} {hashAt : Str → Str}
    {s : RunState} {f : Str}
    (hdec : (decideRecord action hashAt (s.db.get_hash f) f).1 = none)
    (hcc : s.db.change_count ≤ 10) :
    process_file action hashAt s f =
      ⟨s.db, s.mismatch || (decideRecord action hashAt (s.db.get_hash f) f).2,
        s.disk, s.records⟩ := by
  have hlt : ¬ (s.db.num_changes > 10) := by
    rw [FileDatabase.num_changes]; omega
  simp only [process_file, applyWrite, hdec]
  rw [if_neg hlt]

/-- A processing loop in which every path decides to a no-op leaves the
ledger, the flush history and the record count untouched. -/
theorem foldl_noop (action : ExistingFileAction) (hashAt : Str → Str) :
    ∀ (l : List Str) (s : RunState), s.db.change_count ≤ 10 →
      (∀ f ∈ l, (decideRecord action hashAt (s.db.get_hash f) f).1 = none) →
      (l.foldl (process_file action hashAt) s).db = s.db ∧
      (l.foldl (process_file action hashAt) s).disk = s.disk ∧
      (l.foldl (process_file action hashAt) s).records = s.records := by
  intro l
  induction l with
  | nil => exact fun s _ _ => ⟨rfl, rfl, rfl⟩
  | cons f rest ih =>
    intro s hcc hdec
    rw [List.foldl_cons, process_file_noop (hdec f (List.mem_cons_self f rest)) hcc]
    exact ih ⟨s.db, _, s.disk, s.records⟩ hcc
      (fun g hg => hdec g (List.mem_cons_of_mem f hg))

/-- C10: immediately after load the change counter is zero and
has_pending_changes is false, however many entries were read; and a run
in which no path decides a mutation and pruning removes nothing writes
nothing to the ledger file and leaves the ledger map unchanged. -/
theorem claim_C10 (content : Str) (action : ExistingFileAction)
    (hashAt : Str → Str) (removeOld : Bool) (files : List Str) :
    (FileDatabase.load content).change_count = 0 ∧
    (FileDatabase.load content).has_changes = false ∧
    ((∀ f ∈ files,
        (decideRecord action hashAt ((FileDatabase.load content).get_hash f) f).1 =
          none) →
      (∀ e ∈ (FileDatabase.load content).files, e.1 ∈ files) →
      (runMain action hashAt removeOld (FileDatabase.load content) files).1.disk =
        [] ∧
      (runMain action hashAt removeOld (FileDatabase.load content) files).1.db.files =
        (FileDatabase.load content).files) := by
  refine ⟨rfl, rfl, ?_⟩
  intro hdec hkeys
  have hnoop := foldl_noop action hashAt files
    ⟨FileDatabase.load content, false, [], 0⟩ (by rw [show (FileDatabase.load content).change_count = 0 from rfl]; omega) hdec
  obtain ⟨hdb, hdisk, -⟩ := hnoop
  have hdb2 : (if removeOld
      then ((files.foldl (process_file action hashAt)
        ⟨FileDatabase.load content, false, [], 0⟩).db.truncate_to_existing files).1
      else (files.foldl (process_file action hashAt)
        ⟨FileDatabase.load content, false, [], 0⟩).db) = FileDatabase.load content := by
    cases removeOld with
    | false => rw [if_neg (by simp)]; exact hdb
    | true =>
      rw [if_pos rfl, hdb]
      have hspec := truncate_spec (FileDatabase.load content) files
      have hfl : (FileDatabase.load content).files.filter
          (fun e => decide (e.1 ∈ files)) = (FileDatabase.load content).files :=
        List.filter_eq_self.mpr (fun e he => by simpa using hkeys e he)
      have hfl2 : (FileDatabase.load content).files.filter
          (fun e => decide (e.1 ∉ files)) = [] :=
        List.filter_eq_nil_iff.mpr (fun e he => by simpa using hkeys e he)
      have h1 := hspec.1
      have h2 := hspec.2.1
      rw [hfl] at h1
      rw [hfl2] at h2
      simp only [List.length_nil, Nat.add_zero] at h2
      cases hgoal : ((FileDatabase.load content).truncate_to_existing files).1 with
      | mk fl cc =>
        rw [hgoal] at h1 h2
        dsimp at h1 h2
        rw [h1, h2]
  rw [runMain, seqProcess, runFinish]
  dsimp only
  rw [hdb2]
  have hnc : (FileDatabase.load content).has_changes = false := rfl
  rw [hnc]
  simp only [Bool.false_eq_true, if_false]
  exact ⟨hdisk, trivial⟩

theorem splitOnce_eq_none_iff (sep : Char) (s : Str) :
    splitOnce sep s = none ↔ sep ∉ s := by
  induction s with
  | nil => simp [splitOnce]
  | cons c rest ih =>
    by_cases hc : c = sep
    · simp [splitOnce, hc]
    · simp only [splitOnce, hc, if_false, List.mem_cons]
      cases h : splitOnce sep rest with
      | none =>
        simp only [Option.map_none']
        constructor
        · intro _ hmem
          rcases hmem with h1 | h2
          · exact hc h1.symm
          · exact (ih.mp h) h2
        · intro _; trivial
      | some q =>
        simp only [Option.map_some']
        constructor
        · intro habs; exact absurd habs (by simp)
        · intro hmem
          exfalso
          have : sep ∈ rest := by
            by_contra hn
            rw [ih.mpr hn] at h
            exact Option.noConfusion h
          exact hmem (Or.inr this)

theorem splitOnce_some_of_mem {sep : Char} {s : Str} (hmem : sep ∈ s) :
    ∃ a b, splitOnce sep s = some (a, b) ∧ s = a ++ sep :: b ∧ sep ∉ a := by
  induction s with
  | nil => cases hmem
  | cons c rest ih =>
    by_cases hc : c = sep
    · subst hc
      exact ⟨[], rest, by simp [splitOnce], rfl, by simp⟩
    · have hrest : sep ∈ rest := by
        rcases List.mem_cons.mp hmem with h1 | h2
        · exact absurd h1.symm hc
        · exact h2
      obtain ⟨a, b, hsplit, heq, hnot⟩ := ih hrest
      refine ⟨c :: a, b, ?_, ?_, ?_⟩
      · simp [splitOnce, hc, hsplit]
      · rw [List.cons_append, heq]
      · intro hmem2
        rcases List.mem_cons.mp hmem2 with h1 | h2
        · exact hc h1.symm
        · exact hnot h2

theorem lookupKey_eq_none_iff {k : Str} {l : List (Str × Str)} :
    lookupKey k l = none ↔ k ∉ l.map (fun e => e.1) := by
  constructor
  · intro h hmem
    induction l with
    | nil => cases hmem
    | cons e rest ih =>
      rw [List.map_cons, List.mem_cons] at hmem
      by_cases he : e.1 = k
      · rw [lookupKey, if_pos he] at h
        exact Option.noConfusion h
      · rw [lookupKey, if_neg he] at h
        rcases hmem with h1 | h2
        · exact he h1.symm
        · exact ih h h2
  · exact lookupKey_eq_none_of_not_mem

/-- Inserting a list of freshly keyed digest-path pairs into an
association list appends the corresponding path-digest pairs in
order. -/
theorem foldl_insertPair (es : List (Str × Str)) : ∀ acc : List (Str × Str),
    (es.map (fun e => e.2)).Nodup →
    (∀ e ∈ es, lookupKey e.2 acc = none) →
    es.foldl (fun acc e => insertPair e.2 e.1 acc) acc =
      acc ++ es.map (fun e => (e.2, e.1)) := by
  induction es with
  | nil => intro acc _ _; simp
  | cons e rest ih =>
    intro acc hnd hfresh
    rw [List.map_cons, List.nodup_cons] at hnd
    rw [List.foldl_cons]
    have hstep : insertPair e.2 e.1 acc = acc ++ [(e.2, e.1)] := by
      rw [insertPair, removeKey_eq_self_of_not_mem
        (lookupKey_eq_none_iff.mp (hfresh e (List.mem_cons_self e rest)))]
    rw [hstep, ih (acc ++ [(e.2, e.1)]) hnd.2, List.map_cons, List.append_assoc]
    · rfl
    · intro e2 he2
      rw [lookupKey_append, lookupKey_eq_none_iff.mpr, lookupKey]
      · have hne : (e.2, e.1).1 ≠ e2.2 := by
          intro habs
          apply hnd.1
          have habs2 : e.2 = e2.2 := habs
          rw [habs2]
          exact List.mem_map.mpr ⟨e2, he2, rfl⟩
        rw [if_neg hne]
        rfl
      · exact lookupKey_eq_none_iff.mp (hfresh e2 (List.mem_cons_of_mem e he2))

/-- C8: load builds one path-digest entry per well-formed line (a line
whose trimmed form contains a space, split into the space-free digest
prefix before the first space and the path remainder after it), while
blank lines and lines without a space are silently dropped; load itself
is total on any content. -/
theorem claim_C8 (content : Str) :
    (∀ line ∈ splitSep '\n' content,
      (trim line = [] ∨ ' ' ∉ trim line) → splitOnce ' ' (trim line) = none) ∧
    (∀ line ∈ splitSep '\n' content, ' ' ∈ trim line →
      ∃ d p, splitOnce ' ' (trim line) = some (d, p) ∧
        trim line = d ++ ' ' :: p ∧ ' ' ∉ d) ∧
    ((((splitSep '\n' content).filterMap
        (fun line => splitOnce ' ' (trim line))).map (fun e => e.2)).Nodup →
      (FileDatabase.load content).files =
        ((splitSep '\n' content).filterMap
          (fun line => splitOnce ' ' (trim line))).map (fun e => (e.2, e.1))) := by
  refine ⟨?_, ?_, ?_⟩
  · intro line _ hcase
    rcases hcase with h1 | h2
    · rw [h1]; rfl
    · exact (splitOnce_eq_none_iff ' ' (trim line)).mpr h2
  · intro line _ hsp
    obtain ⟨a, b, hsplit, heq, hnot⟩ := splitOnce_some_of_mem hsp
    exact ⟨a, b, hsplit, heq, hnot⟩
  · intro hnd
    rw [FileDatabase.load]
    exact (foldl_insertPair _ [] hnd (fun e _ => rfl)).trans (List.nil_append _)

theorem claim_C8_witness :
    ("".data ∈ splitSep '\n' "aa x\n\nbb y".data) ∧
    splitOnce ' ' (trim "".data) = none ∧
    (∃ d p, splitOnce ' ' (trim "aa x".data) = some (d, p) ∧
      trim "aa x".data = d ++ ' ' :: p ∧ ' ' ∉ d) ∧
    (FileDatabase.load "aa x\n\nbb y".data).files =
      ((splitSep '\n' "aa x\n\nbb y".data).filterMap
        (fun line => splitOnce ' ' (trim line))).map (fun e => (e.2, e.1)) :=
  ⟨by decide,
   (claim_C8 "aa x\n\nbb y".data).1 "".data (by decide) (by decide),
   (claim_C8 "aa x\n\nbb y".data).2.1 "aa x".data (by decide) (by decide),
   (claim_C8 "aa x\n\nbb y".data).2.2 (by decide)⟩

theorem claim_C10_witness :
    (FileDatabase.load "d p".data).change_count = 0 ∧
    ((runMain ExistingFileAction.nothing (fun _ => "d".data) true
        (FileDatabase.load "d p".data) ["p".data]).1.disk = [] ∧
      (runMain ExistingFileAction.nothing (fun _ => "d".data) true
        (FileDatabase.load "d p".data) ["p".data]).1.db.files =
        (FileDatabase.load "d p".data).files) :=
  ⟨(claim_C10 "d p".data ExistingFileAction.nothing (fun _ => "d".data) true
      ["p".data]).1,
   (claim_C10 "d p".data ExistingFileAction.nothing (fun _ => "d".data) true
      ["p".data]).2.2 (by decide) (by decide)⟩

/-- A well-formed digest: nonempty and free of whitespace, as the
lowercase-hex output of compute_hash always is. -/
def wfDigest (h : Str) : Prop := h ≠ [] ∧ ∀ c ∈ h, isWs c = false

/-- A well-formed relative path for the ledger format: nonempty, free
of newlines, and not ending in whitespace. -/
def wfPath (p : Str) : Prop :=
  p ≠ [] ∧ (∀ c ∈ p, c ≠ '\n') ∧ isWs (p.getLastD 'x') = false

/-- A well-formed ledger entry: well-formed path and digest. -/
def wfEntry (e : Str × Str) : Prop := wfPath e.1 ∧ wfDigest e.2

instance : DecidablePred wfDigest := fun h => by
  unfold wfDigest; infer_instance

instance : DecidablePred wfPath := fun p => by
  unfold wfPath; infer_instance

instance : DecidablePred wfEntry := fun e => by
  unfold wfEntry; infer_instance

theorem trim_eq_self {s : Str} (hne : s ≠ [])
    (hh : isWs (s.headD 'x') = false) (hl : isWs (s.getLastD 'x') = false) :
    trim s = s := by
  have h1 : s.dropWhile isWs = s := by
    cases s with
    | nil => rfl
    | cons c t =>
      rw [List.dropWhile_cons]
      rw [List.headD_eq_head?] at hh
      simp only [List.head?_cons, Option.getD_some] at hh
      rw [hh]
      simp
  rw [trim, h1]
  have h2 : s.reverse.dropWhile isWs = s.reverse := by
    cases hrev : s.reverse with
    | nil =>
      exact absurd (by simpa using congrArg List.reverse hrev) hne
    | cons c t =>
      rw [List.dropWhile_cons]
      have : s.getLast? = some c := by
        rw [← List.head?_reverse, hrev, List.head?_cons]
      rw [List.getLastD_eq_getLast?, this, Option.getD_some] at hl
      rw [hl]
      simp
  rw [h2, List.reverse_reverse]

theorem splitOnce_append_sep {sep : Char} {a : Str} (b : Str) (h : sep ∉ a) :
    splitOnce sep (a ++ sep :: b) = some (a, b) := by
  induction a with
  | nil => simp [splitOnce]
  | cons c t ih =>
    have hc : c ≠ sep := fun habs => h (habs ▸ List.mem_cons_self c t)
    rw [List.cons_append, splitOnce]
    rw [if_neg hc, ih (fun hmem => h (List.mem_cons_of_mem c hmem))]
    rfl

theorem splitSep_no_sep {sep : Char} {l : Str} (h : sep ∉ l) :
    splitSep sep l = [l] := by
  induction l with
  | nil => rfl
  | cons c t ih =>
    have hc : c ≠ sep := fun habs => h (habs ▸ List.mem_cons_self c t)
    rw [splitSep, if_neg hc, ih (fun hmem => h (List.mem_cons_of_mem c hmem))]

theorem splitSep_append {sep : Char} {l : Str} (t : Str) (h : sep ∉ l) :
    splitSep sep (l ++ sep :: t) = l :: splitSep sep t := by
  induction l with
  | nil =>
    rw [List.nil_append, splitSep, if_pos rfl]
  | cons c u ih =>
    have hc : c ≠ sep := fun habs => h (habs ▸ List.mem_cons_self c u)
    rw [List.cons_append, splitSep, if_neg hc,
      ih (fun hmem => h (List.mem_cons_of_mem c hmem))]

theorem splitSep_joinLines : ∀ {ls : List Str}, ls ≠ [] →
    (∀ l ∈ ls, '\n' ∉ l) → splitSep '\n' (joinLines ls) = ls := by
  intro ls
  induction ls with
  | nil => exact fun h _ => absurd rfl h
  | cons l rest ih =>
    intro _ hno
    cases rest with
    | nil =>
      rw [joinLines]
      exact splitSep_no_sep (hno l (List.mem_cons_self l []))
    | cons l2 rest2 =>
      rw [joinLines, splitSep_append _ (hno l (List.mem_cons_self l _)),
        ih (List.cons_ne_nil l2 rest2) (fun g hg => hno g (List.mem_cons_of_mem l hg))]
      exact fun h => List.noConfusion h

theorem strLe_total : ∀ a b : Str, strLe a b = true ∨ strLe b a = true := by
  intro a
  induction a with
  | nil => intro b; left; rfl
  | cons c t ih =>
    intro b
    cases b with
    | nil => right; rfl
    | cons d u =>
      rcases lt_trichotomy c d with h | h | h
      · left; rw [strLe, if_pos h]
      · subst h
        have hnlt : ¬ (c < c) := lt_irrefl c
        rcases ih u with h2 | h2
        · left; rw [strLe, if_neg hnlt, if_neg hnlt]; exact h2
        · right; rw [strLe, if_neg hnlt, if_neg hnlt]; exact h2
      · right; rw [strLe, if_pos h]

theorem strLe_trans : ∀ a b c : Str, strLe a b = true → strLe b c = true →
    strLe a c = true := by
  intro a
  induction a with
  | nil => intro b c _ _; rfl
  | cons x t ih =>
    intro b c hab hbc
    cases b with
    | nil => exact absurd hab (by rw [strLe]; simp)
    | cons y u =>
      cases c with
      | nil => exact absurd hbc (by rw [strLe]; simp)
      | cons z v =>
        rcases lt_trichotomy x y with hxy | hxy | hxy
        · rcases lt_trichotomy y z with hyz | hyz | hyz
          · rw [strLe, if_pos (lt_trans hxy hyz)]
          · subst hyz; rw [strLe, if_pos hxy]
          · rw [strLe, if_pos hyz, if_neg (not_lt_of_lt hyz)] at hbc
            exact absurd hbc (by simp)
        · subst hxy
          rcases lt_trichotomy x z with hxz | hxz | hxz
          · rw [strLe, if_pos hxz]
          · subst hxz
            have hnlt : ¬ (x < x) := lt_irrefl x
            rw [strLe, if_neg hnlt, if_neg hnlt] at hab hbc ⊢
            exact ih u v hab hbc
          · rw [strLe, if_pos hxz, if_neg (not_lt_of_lt hxz)] at hbc
            exact absurd hbc (by simp)
        · rw [strLe, if_pos hxy, if_neg (not_lt_of_lt hxy)] at hab
          exact absurd hab (by simp)

instance : IsTotal (Str × Str) entryLe :=
  ⟨fun a b => by
    rcases strLe_total a.1 b.1 with h | h
    · exact Or.inl h
    · exact Or.inr h⟩

instance : IsTrans (Str × Str) entryLe :=
  ⟨fun a b c hab hbc => strLe_trans a.1 b.1 c.1 hab hbc⟩

/-- The entries parsed back from saved content, oriented as
path-digest pairs as the ledger stores them. -/
def parsedEntries (content : Str) : List (Str × Str) :=
  ((splitSep '\n' content).filterMap (fun line => splitOnce ' ' (trim line))).map
    (fun e => (e.2, e.1))

theorem entryLine_no_newline {e : Str × Str} (hwf : wfEntry e) :
    '\n' ∉ entryLine e := by
  intro hmem
  rw [entryLine] at hmem
  rcases List.mem_append.mp hmem with h | h
  · have := hwf.2.2 '\n' h
    exact absurd this (by rw [isWs]; simp)
  · rcases List.mem_cons.mp h with h1 | h2
    · exact absurd h1 (by decide)
    · exact hwf.1.2.1 '\n' h2 rfl

theorem parse_entryLine {e : Str × Str} (hwf : wfEntry e) :
    splitOnce ' ' (trim (entryLine e)) = some (e.2, e.1) := by
  obtain ⟨⟨hp1, hp2, hp3⟩, ⟨hd1, hd2⟩⟩ := hwf
  have hsep : ' ' ∉ e.2 := by
    intro hmem
    have := hd2 ' ' hmem
    rw [isWs] at this
    simp at this
  have htrim : trim (entryLine e) = entryLine e := by
    refine trim_eq_self ?_ ?_ ?_
    · rw [entryLine]
      cases h2 : e.2 with
      | nil => exact List.cons_ne_nil _ _
      | cons c t => exact List.cons_ne_nil _ _
    · rw [entryLine]
      cases h2 : e.2 with
      | nil => exact absurd h2 hd1
      | cons c t =>
        have hc : isWs c = false := hd2 c (by rw [h2]; exact List.mem_cons_self c t)
        rw [List.cons_append, List.headD_eq_head?, List.head?_cons, Option.getD_some]
        exact hc
    · rw [entryLine, List.getLastD_eq_getLast?,
        List.getLast?_append_of_ne_nil _ (List.cons_ne_nil ' ' e.1)]
      have : (' ' :: e.1).getLast? = e.1.getLast? := by
        rw [show (' ' :: e.1) = [' '] ++ e.1 from rfl,
          List.getLast?_append_of_ne_nil _ hp1]
      rw [this, ← List.getLastD_eq_getLast?]
      exact hp3
  rw [htrim, entryLine]
  exact splitOnce_append_sep e.1 hsep

theorem filterMap_eq_map_of_some {α β : Type} {f : α → Option β} {g : α → β} :
    ∀ l : List α, (∀ a ∈ l, f a = some (g a)) → l.filterMap f = l.map g := by
  intro l
  induction l with
  | nil => intro _; rfl
  | cons a rest ih =>
    intro h
    rw [List.filterMap_cons, h a (List.mem_cons_self a rest), List.map_cons,
      ih (fun b hb => h b (List.mem_cons_of_mem a hb))]

theorem parse_serialize (fl : List (Str × Str)) (hwf : ∀ e ∈ fl, wfEntry e) :
    (splitSep '\n' (serializeEntries fl)).filterMap
        (fun line => splitOnce ' ' (trim line)) =
      (sortEntries fl).map (fun e => (e.2, e.1)) := by
  have hperm : (sortEntries fl).Perm fl := List.perm_insertionSort entryLe fl
  have hwf2 : ∀ e ∈ sortEntries fl, wfEntry e :=
    fun e he => hwf e (hperm.mem_iff.mp he)
  cases hs : sortEntries fl with
  | nil =>
    have hfl : fl = [] := List.Perm.eq_nil (hs ▸ hperm).symm
    subst hfl
    rfl
  | cons e0 rest =>
    rw [serializeEntries, hs]
    rw [splitSep_joinLines (by simp) ?hno]
    case hno =>
      intro l hl
      obtain ⟨e, he, hle⟩ := List.mem_map.mp hl
      rw [← hle]
      exact entryLine_no_newline (hwf2 e (hs ▸ he))
    rw [List.filterMap_map]
    exact filterMap_eq_map_of_some (e0 :: rest)
      (fun e he => parse_entryLine (hwf2 e (hs ▸ he)))

theorem lookupKey_eq_of_perm {l1 l2 : List (Str × Str)} (hperm : l1.Perm l2)
    (hnd : (l1.map (fun e => e.1)).Nodup) :
    ∀ k, lookupKey k l1 = lookupKey k l2 := by
  induction hperm with
  | nil => exact fun k => rfl
  | cons x l ih =>
    intro k
    rw [List.map_cons, List.nodup_cons] at hnd
    rw [lookupKey, lookupKey, ih hnd.2]
  | swap x y l =>
    intro k
    rw [List.map_cons, List.map_cons, List.nodup_cons] at hnd
    have hyx : y.1 ≠ x.1 := fun habs => hnd.1 (habs ▸ List.mem_cons_self x.1 _)
    by_cases hy : y.1 = k <;> by_cases hx : x.1 = k
    · exact absurd (hy.trans hx.symm) hyx
    · simp [lookupKey, hy, hx]
    · simp [lookupKey, hy, hx]
    · simp [lookupKey, hy, hx]
  | trans h1 h2 ih1 ih2 =>
    intro k
    rw [ih1 hnd, ih2 ((h1.map (fun e => e.1)).nodup hnd)]

/-- The files restored by loading a saved ledger are exactly its
entries sorted by path. -/
theorem load_save_files (db : FileDatabase)
    (hnd : (db.files.map (fun e => e.1)).Nodup)
    (hwf : ∀ e ∈ db.files, wfEntry e) :
    (FileDatabase.load (db.save).1).files = sortEntries db.files := by
  have hperm : (sortEntries db.files).Perm db.files :=
    List.perm_insertionSort entryLe db.files
  have hndsorted : ((sortEntries db.files).map (fun e => e.1)).Nodup :=
    ((hperm.map (fun e => e.1)).symm).nodup hnd
  have h1 : (splitSep '\n' ((db.save).1)).filterMap
      (fun line => splitOnce ' ' (trim line)) =
        (sortEntries db.files).map (fun e => (e.2, e.1)) :=
    parse_serialize db.files hwf
  rw [FileDatabase.load]
  dsimp only
  rw [h1, foldl_insertPair _ [] ?hnd2 (fun e _ => rfl), List.nil_append,
    List.map_map,
    show ((fun e : Str × Str => (e.2, e.1)) ∘ fun e : Str × Str => (e.2, e.1)) =
      id from rfl,
    List.map_id]
  case hnd2 =>
    rw [List.map_map]
    exact hndsorted

/-- C4: saving a well-formed ledger and loading the result restores
exactly the same path-digest pairs (as a permutation and as a map), a
second immediate save rewrites byte-identical content, and the saved
content is one record per line sorted by path ascending. -/
theorem claim_C4 (db : FileDatabase)
    (hnd : (db.files.map (fun e => e.1)).Nodup)
    (hwf : ∀ e ∈ db.files, wfEntry e) :
    ((FileDatabase.load (db.save).1).files).Perm db.files ∧
    (∀ P, (FileDatabase.load (db.save).1).get_hash P = db.get_hash P) ∧
    ((FileDatabase.load (db.save).1).save).1 = (db.save).1 ∧
    List.Pairwise entryLe (parsedEntries ((db.save).1)) ∧
    (db.files ≠ [] → (splitSep '\n' ((db.save).1)).length = db.files.length) := by
  have hperm : (sortEntries db.files).Perm db.files :=
    List.perm_insertionSort entryLe db.files
  have hndsorted : ((sortEntries db.files).map (fun e => e.1)).Nodup :=
    ((hperm.map (fun e => e.1)).symm).nodup hnd
  have h2 := load_save_files db hnd hwf
  have hsortedsorted : List.Sorted entryLe (sortEntries db.files) :=
    List.sorted_insertionSort entryLe db.files
  refine ⟨?_, ?_, ?_, ?_, ?_⟩
  · rw [h2]; exact hperm
  · intro P
    rw [FileDatabase.get_hash, FileDatabase.get_hash, h2]
    exact lookupKey_eq_of_perm hperm hndsorted P
  · show serializeEntries (FileDatabase.load (db.save).1).files = _
    rw [h2]
    show joinLines ((sortEntries (sortEntries db.files)).map entryLine) = _
    rw [sortEntries, List.Sorted.insertionSort_eq hsortedsorted]
    rfl
  · rw [parsedEntries, show (db.save).1 = serializeEntries db.files from rfl,
      parse_serialize db.files hwf, List.map_map,
      show ((fun e : Str × Str => (e.2, e.1)) ∘ fun e : Str × Str => (e.2, e.1)) =
        id from rfl,
      List.map_id]
    exact hsortedsorted
  · intro hne
    have hsne : sortEntries db.files ≠ [] := by
      intro habs
      exact hne (List.Perm.eq_nil (habs ▸ hperm).symm)
    have hlines : splitSep '\n' ((db.save).1) =
        (sortEntries db.files).map entryLine := by
      show splitSep '\n' (serializeEntries db.files) = _
      rw [serializeEntries]
      refine splitSep_joinLines ?_ ?_
      · intro habs
        exact hsne (List.map_eq_nil_iff.mp habs)
      · intro l hl
        obtain ⟨e, he, hle⟩ := List.mem_map.mp hl
        rw [← hle]
        exact entryLine_no_newline (hwf e (hperm.mem_iff.mp he))
    rw [hlines, List.length_map]
    exact hperm.length_eq
theorem claim_C4_witness :
    ((([("b".data, "y".data), ("a".data, "x".data)] : List (Str × Str)).map
      (fun e => e.1)).Nodup) ∧
    ((FileDatabase.load ((FileDatabase.mk
        [("b".data, "y".data), ("a".data, "x".data)] 7).save).1).files).Perm
      [("b".data, "y".data), ("a".data, "x".data)] ∧
    ((FileDatabase.load ((FileDatabase.mk
        [("b".data, "y".data), ("a".data, "x".data)] 7).save).1).save).1 =
      ((FileDatabase.mk [("b".data, "y".data), ("a".data, "x".data)] 7).save).1 :=
  ⟨by decide,
   (claim_C4 (FileDatabase.mk [("b".data, "y".data), ("a".data, "x".data)] 7)
      (by decide) (by decide)).1,
   (claim_C4 (FileDatabase.mk [("b".data, "y".data), ("a".data, "x".data)] 7)
      (by decide) (by decide)).2.2.1⟩

/-- The record decided for a path from the initial ledger state; in any
run each path is read before any write to it can happen, so this is the
digest written for it (if any). -/
def writeOf (action : ExistingFileAction) (hashAt : Str → Str)
    (db0 : FileDatabase) (f : Str) : Option Str :=
  (decideRecord action hashAt (db0.get_hash f) f).1

/-- Whether processing a path from the initial ledger state sets the
mismatch flag. -/
def flagOf (action : ExistingFileAction) (hashAt : Str → Str)
    (db0 : FileDatabase) (f : Str) : Bool :=
  (decideRecord action hashAt (db0.get_hash f) f).2

/-- The effect of one path on the file map, as decided from the
initial ledger state. -/
def mapUpd (action : ExistingFileAction) (hashAt : Str → Str) (db0 : FileDatabase)
    (fl : List (Str × Str)) (f : Str) : List (Str × Str) :=
  match writeOf action hashAt db0 f with
  | some h => insertPair f h fl
  | none => fl

theorem lookupKey_mapUpd_ne {g f : Str} (hne : g ≠ f) (action : ExistingFileAction)
    (hashAt : Str → Str) (db0 : FileDatabase) (fl : List (Str × Str)) :
    lookupKey g (mapUpd action hashAt db0 fl f) = lookupKey g fl := by
  rw [mapUpd]
  cases writeOf action hashAt db0 f with
  | none => rfl
  | some h => exact lookupKey_insertPair_ne hne h fl

theorem lookupKey_foldl_mapUpd (action : ExistingFileAction) (hashAt : Str → Str)
    (db0 : FileDatabase) :
    ∀ (done : List Str) (init : List (Str × Str)) (g : Str), done.Nodup →
      lookupKey g (done.foldl (mapUpd action hashAt db0) init) =
        (if g ∈ done then
          match writeOf action hashAt db0 g with
          | some h => some h
          | none => lookupKey g init
        else lookupKey g init) := by
  intro done
  induction done with
  | nil => intro init g _; simp
  | cons f rest ih =>
    intro init g hnd
    rw [List.nodup_cons] at hnd
    rw [List.foldl_cons, ih _ g hnd.2]
    by_cases hgr : g ∈ rest
    · rw [if_pos hgr, if_pos (List.mem_cons_of_mem f hgr)]
      cases writeOf action hashAt db0 g with
      | some h => rfl
      | none =>
        dsimp only
        have hgf : g ≠ f := fun habs => hnd.1 (habs ▸ hgr)
        exact lookupKey_mapUpd_ne hgf action hashAt db0 init
    · rw [if_neg hgr]
      by_cases hgf : g = f
      · subst hgf
        rw [if_pos (List.mem_cons_self g rest), mapUpd]
        cases writeOf action hashAt db0 g with
        | some h => exact lookupKey_insertPair_self g h init
        | none => rfl
      · rw [if_neg (fun habs => (List.mem_cons.mp habs).elim hgf hgr)]
        exact lookupKey_mapUpd_ne hgf action hashAt db0 init

theorem any_perm {p : Str → Bool} {l1 l2 : List Str} (hperm : l1.Perm l2) :
    l1.any p = l2.any p := by
  induction hperm with
  | nil => rfl
  | cons x l ih => simp [List.any_cons, ih]
  | swap x y l =>
    simp only [List.any_cons]
    cases p x <;> cases p y <;> simp
  | trans h1 h2 ih1 ih2 => exact ih1.trans ih2

/-- Characterization of a sequential processing sweep over distinct
paths whose ledger entries still carry their initial values. -/
theorem seq_run_spec (action : ExistingFileAction) (hashAt : Str → Str)
    (db0 : FileDatabase) :
    ∀ (l : List Str) (s : RunState), l.Nodup →
      (∀ f ∈ l, s.db.get_hash f = db0.get_hash f) →
      (l.foldl (process_file action hashAt) s).db.files =
          l.foldl (mapUpd action hashAt db0) s.db.files ∧
      (l.foldl (process_file action hashAt) s).records =
          s.records + l.countP (fun f => (writeOf action hashAt db0 f).isSome) ∧
      (l.foldl (process_file action hashAt) s).mismatch =
          (s.mismatch || l.any (fun f => flagOf action hashAt db0 f)) := by
  intro l
  induction l with
  | nil => intro s _ _; simp
  | cons f rest ih =>
    intro s hnd hinit
    rw [List.nodup_cons] at hnd
    have hf : s.db.get_hash f = db0.get_hash f :=
      hinit f (List.mem_cons_self f rest)
    have hdec : decideRecord action hashAt (s.db.get_hash f) f =
        (writeOf action hashAt db0 f, flagOf action hashAt db0 f) := by
      rw [hf, writeOf, flagOf]
    have hstepfiles : (process_file action hashAt s f).db.files =
        mapUpd action hashAt db0 s.db.files f := by
      rw [process_file_db_files, hdec, mapUpd]
    have hsteprecords : (process_file action hashAt s f).records =
        s.records + (if (writeOf action hashAt db0 f).isSome then 1 else 0) := by
      rw [process_file_records, hdec]
      cases writeOf action hashAt db0 f with
      | some h => simp
      | none => simp
    have hstepm : (process_file action hashAt s f).mismatch =
        (s.mismatch || flagOf action hashAt db0 f) := by
      rw [process_file_mismatch, hdec]
    have hrest : ∀ g ∈ rest, (process_file action hashAt s f).db.get_hash g =
        db0.get_hash g := by
      intro g hg
      have hgf : g ≠ f := fun habs => hnd.1 (habs ▸ hg)
      rw [process_file_get_hash_ne hgf]
      exact hinit g (List.mem_cons_of_mem f hg)
    obtain ⟨ihf, ihr, ihm⟩ := ih (process_file action hashAt s f) hnd.2 hrest
    refine ⟨?_, ?_, ?_⟩
    · rw [List.foldl_cons, ihf, hstepfiles, List.foldl_cons]
    · rw [List.foldl_cons, ihr, hsteprecords, List.countP_cons]
      cases hw : (writeOf action hashAt db0 f).isSome <;> simp [hw] <;> omega
    · rw [List.foldl_cons, ihm, hstepm, List.any_cons, Bool.or_assoc]

/-- The paths of the in-flight tasks that have passed the decision
phase (and hence already contributed to the mismatch flag). -/
def taskMidKeys (ts : List WorkUnit) : List Str :=
  (ts.filter (fun t =>
    match t.ph with
    | Phase.midDone _ => true
    | _ => false)).map (fun t => t.f)

theorem taskMidKeys_append (a b : List WorkUnit) :
    taskMidKeys (a ++ b) = taskMidKeys a ++ taskMidKeys b := by
  rw [taskMidKeys, taskMidKeys, taskMidKeys, List.filter_append, List.map_append]

/-- Run invariant of the pooled execution: some completed key list
done accounts for the ledger, the record count and (together with the
in-flight decided tasks) the mismatch flag, while the queue and the
in-flight tasks carry the rest of the discovered path set; every
in-flight read value and decision agrees with the initial ledger. -/
def CInv (action : ExistingFileAction) (hashAt : Str → Str) (db0 : FileDatabase)
    (files : List Str) (st : CState) : Prop :=
  ∃ done : List Str,
    files.Perm (done ++ (st.queue ++ st.tasks.map (fun t => t.f))) ∧
    st.db.files = done.foldl (mapUpd action hashAt db0) db0.files ∧
    st.records = done.countP (fun f => (writeOf action hashAt db0 f).isSome) ∧
    st.mismatch =
      (done ++ taskMidKeys st.tasks).any (fun f => flagOf action hashAt db0 f) ∧
    ∀ t ∈ st.tasks,
      (∀ ex, t.ph = Phase.readDone ex → ex = db0.get_hash t.f) ∧
      (∀ dh, t.ph = Phase.midDone dh → dh = writeOf action hashAt db0 t.f)

theorem CInv_init (action : ExistingFileAction) (hashAt : Str → Str)
    (db0 : FileDatabase) (files : List Str) :
    CInv action hashAt db0 files (initCState db0 files) := by
  refine ⟨[], ?_, rfl, rfl, rfl, ?_⟩
  · simp [initCState]
  · intro t ht
    cases ht

theorem applyWrite_files (db : FileDatabase) (disk : List Str) (rc : Nat)
    (f : Str) (dh : Option Str) :
    (applyWrite db disk rc f dh).1.files =
      match dh with
      | some h => insertPair f h db.files
      | none => db.files := by
  rw [applyWrite.eq_def]
  cases dh with
  | some h =>
    dsimp only
    split <;> rfl
  | none =>
    dsimp only
    split <;> rfl

theorem applyWrite_records (db : FileDatabase) (disk : List Str) (rc : Nat)
    (f : Str) (dh : Option Str) :
    (applyWrite db disk rc f dh).2.2 =
      rc + (if dh.isSome then 1 else 0) := by
  rw [applyWrite.eq_def]
  cases dh with
  | some h =>
    dsimp only
    split <;> simp
  | none =>
    dsimp only
    split <;> simp

theorem CInv_step (action : ExistingFileAction) (hashAt : Str → Str)
    (db0 : FileDatabase) (files : List Str) (hnd : files.Nodup)
    {st st' : CState} (hstep : CStep action hashAt st st')
    (hinv : CInv action hashAt db0 files st) :
    CInv action hashAt db0 files st' := by
  obtain ⟨done, hperm, hfiles, hrecords, hmis, htasks⟩ := hinv
  cases hstep with
  | pop f rest tasks db m disk rc =>
    dsimp only at hperm hfiles hrecords hmis htasks ⊢
    refine ⟨done, ?_, hfiles, hrecords, ?_, ?_⟩
    · rw [List.map_append]
      simp only [List.map_cons, List.map_nil]
      refine hperm.trans (List.Perm.append_left done ?_)
      have e1 : (f :: rest) ++ tasks.map (fun t => t.f) =
          [f] ++ (rest ++ tasks.map (fun t => t.f)) := by simp
      have p1 : ([f] ++ (rest ++ tasks.map (fun t => t.f))).Perm
          ((rest ++ tasks.map (fun t => t.f)) ++ [f]) := List.perm_append_comm
      have e2 : (rest ++ tasks.map (fun t => t.f)) ++ [f] =
          rest ++ (tasks.map (fun t => t.f) ++ [f]) := by rw [List.append_assoc]
      rw [e1, ← e2]
      exact p1
    · rw [taskMidKeys_append, show taskMidKeys [⟨f, Phase.started⟩] = [] from rfl,
        List.append_nil]
      exact hmis
    · intro t ht
      rcases List.mem_append.mp ht with h1 | h2
      · exact htasks t h1
      · have heq : t = ⟨f, Phase.started⟩ := by simpa using h2
        subst heq
        exact ⟨fun ex hex => Phase.noConfusion hex,
          fun dh hdh => Phase.noConfusion hdh⟩
  | read q pre post f db m disk rc =>
    dsimp only at hperm hfiles hrecords hmis htasks ⊢
    have hnodall := hperm.nodup hnd
    rw [List.nodup_append] at hnodall
    have hfmem : f ∈ (pre ++ ⟨f, Phase.started⟩ :: post).map (fun t => t.f) := by
      simp
    have hfnd : f ∉ done := fun hfd =>
      hnodall.2.2 hfd (List.mem_append.mpr (Or.inr hfmem))
    have hread : db.get_hash f = db0.get_hash f := by
      rw [FileDatabase.get_hash, hfiles,
        lookupKey_foldl_mapUpd action hashAt db0 done db0.files f hnodall.1,
        if_neg hfnd]
      rfl
    refine ⟨done, ?_, hfiles, hrecords, ?_, ?_⟩
    · simpa using hperm
    · have e1 : taskMidKeys (pre ++ ⟨f, Phase.started⟩ :: post) =
          taskMidKeys pre ++ taskMidKeys post := by
        simp [taskMidKeys, List.filter_append, List.filter_cons]
      have e2 : taskMidKeys (pre ++ ⟨f, Phase.readDone (db.get_hash f)⟩ :: post) =
          taskMidKeys pre ++ taskMidKeys post := by
        simp [taskMidKeys, List.filter_append, List.filter_cons]
      rw [e2, ← e1]
      exact hmis
    · intro t ht
      rcases List.mem_append.mp ht with h1 | h2
      · exact htasks t (List.mem_append.mpr (Or.inl h1))
      · rcases List.mem_cons.mp h2 with heq | h3
        · subst heq
          refine ⟨?_, ?_⟩
          · intro ex hex
            have hex2 : Phase.readDone (db.get_hash f) = Phase.readDone ex := hex
            cases hex2
            exact hread
          · intro dh hdh
            exact Phase.noConfusion hdh
        · exact htasks t (List.mem_append.mpr (Or.inr (List.mem_cons_of_mem _ h3)))
  | mid q pre post f ex db m disk rc =>
    dsimp only at hperm hfiles hrecords hmis htasks ⊢
    have hex : ex = db0.get_hash f :=
      (htasks ⟨f, Phase.readDone ex⟩
        (List.mem_append.mpr (Or.inr (List.mem_cons_self _ _)))).1 ex rfl
    have hdec : decideRecord action hashAt ex f =
        (writeOf action hashAt db0 f, flagOf action hashAt db0 f) := by
      rw [hex, writeOf, flagOf]
    refine ⟨done, ?_, hfiles, hrecords, ?_, ?_⟩
    · simpa using hperm
    · have e1 : taskMidKeys (pre ++ ⟨f, Phase.readDone ex⟩ :: post) =
          taskMidKeys pre ++ taskMidKeys post := by
        simp [taskMidKeys, List.filter_append, List.filter_cons]
      have e2 : taskMidKeys
          (pre ++ ⟨f, Phase.midDone (decideRecord action hashAt ex f).1⟩ :: post) =
            taskMidKeys pre ++ f :: taskMidKeys post := by
        simp [taskMidKeys, List.filter_append, List.filter_cons]
      rw [e2, hmis, e1, hdec]
      simp only [List.any_append, List.any_cons]
      cases done.any (fun g => flagOf action hashAt db0 g) <;>
        cases (taskMidKeys pre).any (fun g => flagOf action hashAt db0 g) <;>
        cases (taskMidKeys post).any (fun g => flagOf action hashAt db0 g) <;>
        cases flagOf action hashAt db0 f <;> rfl
    · intro t ht
      rcases List.mem_append.mp ht with h1 | h2
      · exact htasks t (List.mem_append.mpr (Or.inl h1))
      · rcases List.mem_cons.mp h2 with heq | h3
        · subst heq
          refine ⟨?_, ?_⟩
          · intro ex2 hex2
            exact Phase.noConfusion hex2
          · intro dh hdh
            have hdh2 : Phase.midDone (decideRecord action hashAt ex f).1 =
                Phase.midDone dh := hdh
            cases hdh2
            rw [hdec]
        · exact htasks t (List.mem_append.mpr (Or.inr (List.mem_cons_of_mem _ h3)))
  | write q pre post f dh db m disk rc =>
    dsimp only at hperm hfiles hrecords hmis htasks ⊢
    have hdh : dh = writeOf action hashAt db0 f :=
      (htasks ⟨f, Phase.midDone dh⟩
        (List.mem_append.mpr (Or.inr (List.mem_cons_self _ _)))).2 dh rfl
    refine ⟨done ++ [f], ?_, ?_, ?_, ?_, ?_⟩
    · have h1 : files.Perm (done ++ (q ++ (pre.map (fun t => t.f) ++
          f :: post.map (fun t => t.f)))) := by simpa using hperm
      have hmid : (q ++ (pre.map (fun t => t.f) ++
          f :: post.map (fun t => t.f))).Perm
            (f :: (q ++ (pre.map (fun t => t.f) ++ post.map (fun t => t.f)))) := by
        have h3 := @List.perm_middle Str f (q ++ pre.map (fun t => t.f))
          (post.map (fun t => t.f))
        simpa [List.append_assoc] using h3
      have h2 := h1.trans (List.Perm.append_left done hmid)
      simp only [List.map_append, List.append_assoc, List.singleton_append]
      simpa [List.append_assoc] using h2
    · rw [applyWrite_files, List.foldl_append, List.foldl_cons, List.foldl_nil,
        ← hfiles, hdh, mapUpd]
    · rw [applyWrite_records, hdh, hrecords, List.countP_append]
      simp [List.countP_cons]
    · have e1 : taskMidKeys (pre ++ ⟨f, Phase.midDone dh⟩ :: post) =
          taskMidKeys pre ++ f :: taskMidKeys post := by
        simp [taskMidKeys, List.filter_append, List.filter_cons]
      rw [taskMidKeys_append, hmis, e1]
      simp only [List.any_append, List.any_cons]
      cases done.any (fun g => flagOf action hashAt db0 g) <;>
        cases (taskMidKeys pre).any (fun g => flagOf action hashAt db0 g) <;>
        cases (taskMidKeys post).any (fun g => flagOf action hashAt db0 g) <;>
        cases flagOf action hashAt db0 f <;> rfl
    · intro t ht
      rcases List.mem_append.mp ht with h1 | h2
      · exact htasks t (List.mem_append.mpr (Or.inl h1))
      · exact htasks t (List.mem_append.mpr (Or.inr (List.mem_cons_of_mem _ h2)))

theorem CRun_inv (action : ExistingFileAction) (hashAt : Str → Str)
    (db0 : FileDatabase) (files : List Str) (W : Nat) (hnd : files.Nodup)
    {s fin : CState} (hrun : CRun action hashAt W s fin)
    (hs : CInv action hashAt db0 files s) :
    CInv action hashAt db0 files fin := by
  induction hrun with
  | refl => exact hs
  | step hr hstep hb ih =>
    exact CInv_step action hashAt db0 files hnd hstep ih

theorem lookupKey_filter_not_keep {g : Str} {keep : List Str} (hg : g ∉ keep)
    (l : List (Str × Str)) :
    lookupKey g (l.filter (fun e => decide (e.1 ∈ keep))) = none := by
  induction l with
  | nil => rfl
  | cons e rest ih =>
    by_cases hk : e.1 ∈ keep
    · have hne : e.1 ≠ g := fun habs => hg (habs ▸ hk)
      simp [List.filter_cons, hk, lookupKey, hne, ih]
    · simp [List.filter_cons, hk, ih]

/-- Two run states with the same ledger map give the same ledger map
after the run tail (prune plus final save). -/
theorem runFinish_get_hash_congr (removeOld : Bool) (files : List Str)
    {s1 s2 : RunState} (h : ∀ g, s1.db.get_hash g = s2.db.get_hash g) :
    ∀ g, (runFinish removeOld files s1).1.db.get_hash g =
      (runFinish removeOld files s2).1.db.get_hash g := by
  intro g
  have hdb2 : (if removeOld then (s1.db.truncate_to_existing files).1
      else s1.db).get_hash g =
        (if removeOld then (s2.db.truncate_to_existing files).1
          else s2.db).get_hash g := by
    cases removeOld with
    | false => exact h g
    | true =>
      rw [if_pos rfl, if_pos rfl, FileDatabase.get_hash, FileDatabase.get_hash,
        (truncate_spec s1.db files).1, (truncate_spec s2.db files).1]
      by_cases hm : g ∈ files
      · rw [lookupKey_filter_keep hm, lookupKey_filter_keep hm]
        exact h g
      · rw [lookupKey_filter_not_keep hm, lookupKey_filter_not_keep hm]
  unfold runFinish
  dsimp only
  set d1 := if removeOld then (s1.db.truncate_to_existing files).1 else s1.db
  set d2 := if removeOld then (s2.db.truncate_to_existing files).1 else s2.db
  split <;> split <;> exact hdb2


/-- C9: a pooled run with any positive worker count, under any
interleaving of the per-path pop, read, decide and write critical
sections, ends with the same ledger map, the same number of record
calls and the same mismatch flag as the single-threaded run, and the
run tail then produces the same final ledger map and exit status. -/
theorem claim_C9 (action : ExistingFileAction) (hashAt : Str → Str)
    (db0 : FileDatabase) (files : List Str) (removeOld : Bool) (W : Nat)
    (hW : 1 ≤ W) (hnd : files.Nodup) (fin : CState)
    (hrun : CRun action hashAt W (initCState db0 files) fin)
    (hq : fin.queue = []) (ht : fin.tasks = []) :
    (∀ g, fin.db.get_hash g =
      (seqProcess action hashAt db0 files).db.get_hash g) ∧
    fin.records = (seqProcess action hashAt db0 files).records ∧
    fin.mismatch = (seqProcess action hashAt db0 files).mismatch ∧
    (∀ g, (runFinish removeOld files
        ⟨fin.db, fin.mismatch, fin.disk, fin.records⟩).1.db.get_hash g =
      (runMain action hashAt removeOld db0 files).1.db.get_hash g) ∧
    (runFinish removeOld files
        ⟨fin.db, fin.mismatch, fin.disk, fin.records⟩).2 =
      (runMain action hashAt removeOld db0 files).2 := by
  obtain ⟨done, hperm, hfiles, hrecords, hmis, -⟩ :=
    CRun_inv action hashAt db0 files W hnd hrun (CInv_init action hashAt db0 files)
  rw [hq, ht] at hperm
  rw [ht] at hmis
  have hperm2 : files.Perm done := by simpa using hperm
  have hmis2 : fin.mismatch = done.any (fun f => flagOf action hashAt db0 f) := by
    simpa [taskMidKeys] using hmis
  have hdone_nd : done.Nodup := hperm2.nodup hnd
  obtain ⟨sf, sr, sm⟩ := seq_run_spec action hashAt db0 files
    ⟨db0, false, [], 0⟩ hnd (fun f _ => rfl)
  have hlook : ∀ g, fin.db.get_hash g =
      (seqProcess action hashAt db0 files).db.get_hash g := by
    intro g
    rw [FileDatabase.get_hash, FileDatabase.get_hash, hfiles, seqProcess, sf,
      lookupKey_foldl_mapUpd action hashAt db0 done db0.files g hdone_nd,
      lookupKey_foldl_mapUpd action hashAt db0 files db0.files g hnd]
    by_cases hgf : g ∈ files
    · rw [if_pos (hperm2.mem_iff.mp hgf), if_pos hgf]
    · rw [if_neg (fun habs => hgf (hperm2.mem_iff.mpr habs)), if_neg hgf]
  have hrec : fin.records = (seqProcess action hashAt db0 files).records := by
    rw [hrecords, seqProcess, sr, Nat.zero_add]
    exact (hperm2.countP_eq _).symm
  have hm : fin.mismatch = (seqProcess action hashAt db0 files).mismatch := by
    rw [hmis2, seqProcess, sm, Bool.false_or]
    exact any_perm hperm2.symm
  refine ⟨hlook, hrec, hm, ?_, ?_⟩
  · exact runFinish_get_hash_congr removeOld files hlook
  · rw [runFinish_exit, runMain, runFinish_exit,
      show (⟨fin.db, fin.mismatch, fin.disk, fin.records⟩ : RunState).mismatch =
        fin.mismatch from rfl,
      hm]
theorem claim_C9_witness :
    (FileDatabase.get_hash (⟨[("p".data, "d".data)], 1⟩ : FileDatabase) "p".data =
      (seqProcess ExistingFileAction.nothing (fun _ => "d".data) ⟨[], 0⟩
        ["p".data]).db.get_hash "p".data) ∧
    ((1 : Nat) = (seqProcess ExistingFileAction.nothing (fun _ => "d".data)
        ⟨[], 0⟩ ["p".data]).records) ∧
    ((runFinish false ["p".data]
        ⟨⟨[("p".data, "d".data)], 1⟩, false, [], 1⟩).2 =
      (runMain ExistingFileAction.nothing (fun _ => "d".data) false ⟨[], 0⟩
        ["p".data]).2) := by
  have hrun : CRun ExistingFileAction.nothing (fun _ => "d".data) 1
      (initCState ⟨[], 0⟩ ["p".data])
      ⟨[], [], ⟨[("p".data, "d".data)], 1⟩, false, [], 1⟩ :=
    CRun.step (CRun.step (CRun.step (CRun.step (CRun.refl _)
      (CStep.pop "p".data [] [] ⟨[], 0⟩ false [] 0) (by decide))
      (CStep.read [] [] [] "p".data ⟨[], 0⟩ false [] 0) (by decide))
      (CStep.mid [] [] [] "p".data (FileDatabase.get_hash ⟨[], 0⟩ "p".data)
        ⟨[], 0⟩ false [] 0) (by decide))
      (CStep.write [] [] [] "p".data
        (decideRecord ExistingFileAction.nothing (fun _ => "d".data)
          (FileDatabase.get_hash ⟨[], 0⟩ "p".data) "p".data).1
        ⟨[], 0⟩
        (false || (decideRecord ExistingFileAction.nothing (fun _ => "d".data)
          (FileDatabase.get_hash ⟨[], 0⟩ "p".data) "p".data).2) [] 0) (by decide)
  have h := claim_C9 ExistingFileAction.nothing (fun _ => "d".data) ⟨[], 0⟩
    ["p".data] false 1 (by decide) (by decide) _ hrun rfl rfl
  exact ⟨h.1 "p".data, h.2.1, h.2.2.2.2⟩
